import Mathlib

/-!
Verification of the JSON parser in `src/json_parser/parser.rs` against its
natural-language specification.

The parser is shallowly embedded: the `Peekable<Chars>` cursor becomes a
`List Char`, every sub-parser becomes a pure Lean function returning its
result together with the remaining character list, and the mutual recursion
between the value dispatcher and the object/array parsers is made total with
an explicit fuel parameter (`none` models running out of fuel, which the
fuel-sufficiency theorem shows never happens for the fuel chosen by
`parse_json`).
-/

set_option maxHeartbeats 1000000

/-- Modelled from the spec: the repository's `JsonValue` enum lives in
`src/json_parser/value.rs`, which is referenced from `parser.rs`
(`use super::value::JsonValue`) but is not among the provided sources.
Its variants and payload types are forced by spec section 3 and by every use
in `parser.rs` (`JsonValue::Object(Vec<(String, JsonValue)>)`,
`JsonValue::Array(Vec<JsonValue>)`, `JsonValue::String(String)`,
`JsonValue::Number(f64)`, `JsonValue::Boolean(bool)`, `JsonValue::Null`).
The `f64` payload of `number` is abstracted to the exact decimal value
`mantissa * 10 ^ exp10` produced by the numeric literal: IEEE-754 rounding,
overflow to infinity and NaN are outside this embedding. -/
inductive JsonValue : Type where
  | null : JsonValue
  | boolean : Bool → JsonValue
  | number : Int → Int → JsonValue
  | string : List Char → JsonValue
  | array : List JsonValue → JsonValue
  | object : List (List Char × JsonValue) → JsonValue

/-- Models `Peekable::peek` on the character iterator: the next character, if
any, without consuming it. -/
def rustPeek (s : List Char) : Option Char :=
  s.head?

/-- Models `Iterator::next` on the character iterator: the next character and
the rest, or `none` at end of input. -/
def rustNext (s : List Char) : Option (Char × List Char) :=
  match s with
  | [] => none
  | c :: cs => some (c, cs)

/-- Models `char::is_whitespace` (the Unicode `White_Space` property, the 25
code points listed in `PropList.txt`). -/
def rust_is_whitespace (c : Char) : Bool :=
  let n := c.toNat
  (decide (9 ≤ n) && decide (n ≤ 13)) || decide (n = 32) || decide (n = 0x85) ||
    decide (n = 0xA0) || decide (n = 0x1680) ||
    (decide (0x2000 ≤ n) && decide (n ≤ 0x200A)) || decide (n = 0x2028) ||
    decide (n = 0x2029) || decide (n = 0x202F) || decide (n = 0x205F) ||
    decide (n = 0x3000)

/-- Models `Parser::skip_whitespace` (parser.rs lines 31-38): consume the
maximal run of whitespace characters. -/
def skip_whitespace (s : List Char) : List Char :=
  s.dropWhile rust_is_whitespace

/-- Models the clone-and-compare loop of `Parser::consume_if_match`
(parser.rs lines 181-186): compare the cloned cursor character by character
against the expected keyword, reporting whether every expected character
matched. -/
def checkMatch : List Char → List Char → Bool
  | [], _ => true
  | e :: es, s =>
    match rustNext s with
    | some (c, rest) => if c = e then checkMatch es rest else false
    | none => false

/-- Models the UTF-8 byte length `str::len` of the keyword, which is the
number of `next()` calls `consume_if_match` performs on a full match
(parser.rs lines 187-189). -/
def utf8Len (l : List Char) : Nat :=
  (l.map Char.utf8Size).sum

/-- Models `Parser::consume_if_match` (parser.rs lines 180-191): on a full
match advance the real cursor by `expected.len()` characters and report
`true`, otherwise leave the cursor untouched and report `false`. -/
def consume_if_match (expected s : List Char) : Bool × List Char :=
  if checkMatch expected s then (true, s.drop (utf8Len expected)) else (false, s)

/-- Value of a single hexadecimal digit, as recognised by
`u32::from_str_radix(_, 16)`. -/
def hexDigitVal (c : Char) : Option Nat :=
  if '0' ≤ c ∧ c ≤ '9' then some (c.toNat - 48)
  else if 'a' ≤ c ∧ c ≤ 'f' then some (c.toNat - 87)
  else if 'A' ≤ c ∧ c ≤ 'F' then some (c.toNat - 55)
  else none

/-- Accumulating digit loop of `u32::from_str_radix(_, 16)`: fails on an
invalid digit and on overflow past `u32::MAX`. -/
def hexAccum (digits : List Char) (acc : Nat) : Option Nat :=
  match digits with
  | [] => some acc
  | c :: cs =>
    match hexDigitVal c with
    | none => none
    | some d => if acc * 16 + d ≤ 0xFFFFFFFF then hexAccum cs (acc * 16 + d) else none

/-- Models `u32::from_str_radix(hex, 16)` (parser.rs line 116): an optional
leading `+` (accepted for unsigned integer types), then a non-empty run of
hexadecimal digits; anything else is an error. -/
def parseHexU32 (s : List Char) : Option Nat :=
  let digits := match s with
    | '+' :: r => r
    | r => r
  if digits.isEmpty then none else hexAccum digits 0

/-- Models `char::from_u32` (parser.rs line 119): `some` exactly when the
value is a Unicode scalar value (not a surrogate, not above `0x10FFFF`). -/
def rustCharFromU32 (n : Nat) : Option Char :=
  if h : n.isValidChar then some (Char.ofNatAux n h) else none

/-- Models the decoding of the 4 characters of a `\u` escape
(parser.rs lines 116-120): `u32::from_str_radix(_, 16)` followed by
`char::from_u32`, each failure mapped to the invalid-unicode-escape error. -/
def decode_u16 (a b c d : Char) : Except String Char :=
  match parseHexU32 [a, b, c, d] with
  | none => Except.error "Invalid unicode escape"
  | some code =>
    match rustCharFromU32 code with
    | none => Except.error "Invalid unicode escape"
    | some ch => Except.ok ch

/-- Models the scanning loop of `Parser::parse_string` (parser.rs lines
97-128), with the accumulated output string as an explicit argument.
The `\u` arm mirrors `self.chars.by_ref().take(4).collect()`: when at least
4 characters remain they are consumed and decoded, and when fewer remain
they are all consumed and the length check fails. -/
def parse_string_loop : List Char → List Char → Except String (List Char) × List Char
  | [], _acc => (Except.error "Unterminated string", [])
  | c :: rest, acc =>
    if c = '"' then (Except.ok acc, rest)
    else if c = '\\' then
      match rest with
      | [] => (Except.error "Invalid escape character", [])
      | e :: rest2 =>
        if e = '"' then parse_string_loop rest2 (acc ++ ['"'])
        else if e = '\\' then parse_string_loop rest2 (acc ++ ['\\'])
        else if e = '/' then parse_string_loop rest2 (acc ++ ['/'])
        else if e = 'b' then parse_string_loop rest2 (acc ++ ['\x08'])
        else if e = 'f' then parse_string_loop rest2 (acc ++ ['\x0C'])
        else if e = 'n' then parse_string_loop rest2 (acc ++ ['\n'])
        else if e = 'r' then parse_string_loop rest2 (acc ++ ['\r'])
        else if e = 't' then parse_string_loop rest2 (acc ++ ['\t'])
        else if e = 'u' then
          match rest2 with
          | h1 :: h2 :: h3 :: h4 :: rest3 =>
            match decode_u16 h1 h2 h3 h4 with
            | Except.error m => (Except.error m, rest3)
            | Except.ok ch => parse_string_loop rest3 (acc ++ [ch])
          | _ => (Except.error "Invalid unicode escape", [])
        else (Except.error "Invalid escape character", rest2)
    else parse_string_loop rest (acc ++ [c])

/-- Models `Parser::parse_string` (parser.rs lines 93-129): consume the
opening character unconditionally (it is assumed, not checked, to be `"`),
then scan until an unescaped closing quote. -/
def parse_string (s : List Char) : Except String (List Char) × List Char :=
  parse_string_loop s.tail []

/-- Character class of the number scanner (parser.rs line 139): ASCII digit,
dot, exponent letters and signs. -/
def is_number_char (c : Char) : Bool :=
  c.isDigit || c = '.' || c = 'e' || c = 'E' || c = '+' || c = '-'

/-- Models the scanning loop of `Parser::parse_number` (parser.rs lines
138-144): the maximal run of number characters and the remainder. -/
def scan_number : List Char → List Char × List Char
  | [] => ([], [])
  | c :: cs =>
    if is_number_char c then
      let (run, rest) := scan_number cs
      (c :: run, rest)
    else ([], c :: cs)

/-- Numeric value of a run of decimal digits. -/
def digitsVal (l : List Char) : Nat :=
  l.foldl (fun a c => a * 10 + (c.toNat - 48)) 0

/-- Exact decimal value `mantissa * 10 ^ exp10` assembled from the integer
digits, the fraction digits and the exponent of a numeric literal. -/
def mkDecimal (sign : Int) (intD fracD : List Char) (e : Int) : Int × Int :=
  (sign * ((digitsVal intD : Int) * (10 : Int) ^ fracD.length + (digitsVal fracD : Int)),
    e - (fracD.length : Int))

/-- Exponent-and-tail part of the `f64` grammar: either end of input, or
`e`/`E`, an optional sign and a non-empty digit run that must end the
string. -/
def parseF64Exp (sign : Int) (intD fracD : List Char) : List Char → Option (Int × Int)
  | [] => some (mkDecimal sign intD fracD 0)
  | c :: r =>
    if c = 'e' ∨ c = 'E' then
      let (esign, r1) : Int × List Char :=
        match r with
        | '+' :: t => (1, t)
        | '-' :: t => (-1, t)
        | t => (1, t)
      let eD := r1.takeWhile Char.isDigit
      if eD.isEmpty then none
      else if (r1.dropWhile Char.isDigit).isEmpty then
        some (mkDecimal sign intD fracD (esign * (digitsVal eD : Int)))
      else none
    else none

/-- Mantissa part of the `f64` grammar after the optional sign: a digit run,
an optional dot and fraction run (at least one digit on some side of the
dot), then the exponent part. -/
def parseF64Mantissa (sign : Int) (s : List Char) : Option (Int × Int) :=
  let intD := s.takeWhile Char.isDigit
  let s2 := s.dropWhile Char.isDigit
  match s2 with
  | '.' :: s3 =>
    let fracD := s3.takeWhile Char.isDigit
    let s4 := s3.dropWhile Char.isDigit
    if intD.isEmpty ∧ fracD.isEmpty then none
    else parseF64Exp sign intD fracD s4
  | _ => if intD.isEmpty then none else parseF64Exp sign intD [] s2

/-- Models `str::parse::<f64>` (parser.rs line 147) on the character set the
number scanner can produce (`[0-9.eE+-]*` after an optional leading sign):
the documented whole-string grammar
`Sign? (Digit+ | Digit+ . Digit* | Digit* . Digit+) ((e|E) Sign? Digit+)?`.
The special word forms `inf`/`infinity`/`nan` contain letters the scanner
never consumes, so they are unreachable here. The resulting `f64` is
abstracted to the exact decimal `(mantissa, exp10)`; IEEE-754 rounding and
overflow are not modelled. -/
def parseF64 : List Char → Option (Int × Int)
  | '+' :: r => parseF64Mantissa 1 r
  | '-' :: r => parseF64Mantissa (-1) r
  | s => parseF64Mantissa 1 s

/-- Conversion step shared by both branches of `parse_number`: scan the
maximal run of number characters and hand `pre ++ run` to the `f64`
conversion, failing with `Invalid number` when it rejects the text. -/
def parse_number_conv (pre t : List Char) : Except String JsonValue × List Char :=
  match parseF64 (pre ++ (scan_number t).1) with
  | some (m, e) => (Except.ok (JsonValue.number m e), (scan_number t).2)
  | none => (Except.error "Invalid number", (scan_number t).2)

/-- Models `Parser::parse_number` (parser.rs lines 131-150): optionally
consume a leading `-`, consume the maximal run of number characters, then
convert the collected text with `str::parse::<f64>`. -/
def parse_number (s : List Char) : Except String JsonValue × List Char :=
  match s with
  | '-' :: rest => parse_number_conv ['-'] rest
  | _ => parse_number_conv [] s

/-- Models `Parser::parse_boolean` (parser.rs lines 152-170). -/
def parse_boolean (s : List Char) : Except String JsonValue × List Char :=
  match rustPeek s with
  | some 't' =>
    match consume_if_match "true".data s with
    | (true, r) => (Except.ok (JsonValue.boolean true), r)
    | (false, r) => (Except.error "Expected \x27true\x27", r)
  | some 'f' =>
    match consume_if_match "false".data s with
    | (true, r) => (Except.ok (JsonValue.boolean false), r)
    | (false, r) => (Except.error "Expected \x27false\x27", r)
  | _ => (Except.error "Expected boolean", s)

/-- Models `Parser::parse_null` (parser.rs lines 172-178). -/
def parse_null (s : List Char) : Except String JsonValue × List Char :=
  match consume_if_match "null".data s with
  | (true, r) => (Except.ok JsonValue.null, r)
  | (false, r) => (Except.error "Expected \x27null\x27", r)

/-- Models the body of the `loop` in `Parser::parse_object` (parser.rs lines
44-67), with the value dispatcher passed in as `pv`, an explicit fuel for
the loop, and the accumulated `Vec` of pairs as an argument. `none` models
fuel exhaustion only. -/
def parse_object_loop (pv : List Char → Option (Except String JsonValue × List Char)) :
    Nat → List Char → List (List Char × JsonValue) →
    Option (Except String JsonValue × List Char)
  | 0, _, _ => none
  | f + 1, s, acc =>
    let s1 := skip_whitespace s
    match rustPeek s1 with
    | some '\x7d' => some (Except.ok (JsonValue.object acc), s1.tail)
    | _ =>
      match parse_string s1 with
      | (Except.error m, r) => some (Except.error m, r)
      | (Except.ok key, s2) =>
        let s3 := skip_whitespace s2
        match rustNext s3 with
        | none => some (Except.error "Expected \x27:\x27 in object", s3)
        | some (c, s4) =>
          if c = ':' then
            match pv s4 with
            | none => none
            | some (Except.error m, s5) => some (Except.error m, s5)
            | some (Except.ok v, s5) =>
              let acc2 := acc ++ [(key, v)]
              let s6 := skip_whitespace s5
              match rustNext s6 with
              | none => some (Except.error "Expected \x27,\x27 or \x27\x7d\x27 in object", s6)
              | some (c2, s7) =>
                if c2 = ',' then parse_object_loop pv f s7 acc2
                else if c2 = '\x7d' then some (Except.ok (JsonValue.object acc2), s7)
                else some (Except.error "Expected \x27,\x27 or \x27\x7d\x27 in object", s7)
          else some (Except.error "Expected \x27:\x27 in object", s4)

/-- Models `Parser::parse_object` (parser.rs lines 40-68): consume the `{`
unconditionally and run the loop with an empty accumulator. -/
def parse_object (pv : List Char → Option (Except String JsonValue × List Char))
    (f : Nat) (s : List Char) : Option (Except String JsonValue × List Char) :=
  parse_object_loop pv f s.tail []

/-- Models the body of the `loop` in `Parser::parse_array` (parser.rs lines
74-90), in the same style as `parse_object_loop`. -/
def parse_array_loop (pv : List Char → Option (Except String JsonValue × List Char)) :
    Nat → List Char → List JsonValue →
    Option (Except String JsonValue × List Char)
  | 0, _, _ => none
  | f + 1, s, acc =>
    let s1 := skip_whitespace s
    match rustPeek s1 with
    | some ']' => some (Except.ok (JsonValue.array acc), s1.tail)
    | _ =>
      match pv s1 with
      | none => none
      | some (Except.error m, s2) => some (Except.error m, s2)
      | some (Except.ok v, s2) =>
        let acc2 := acc ++ [v]
        let s3 := skip_whitespace s2
        match rustNext s3 with
        | none => some (Except.error "Expected \x27,\x27 or \x27]\x27 in array", s3)
        | some (c, s4) =>
          if c = ',' then parse_array_loop pv f s4 acc2
          else if c = ']' then some (Except.ok (JsonValue.array acc2), s4)
          else some (Except.error "Expected \x27,\x27 or \x27]\x27 in array", s4)

/-- Models `Parser::parse_array` (parser.rs lines 70-91). -/
def parse_array (pv : List Char → Option (Except String JsonValue × List Char))
    (f : Nat) (s : List Char) : Option (Except String JsonValue × List Char) :=
  parse_array_loop pv f s.tail []

/-- Models `Parser::parse_value` (parser.rs lines 17-29): skip whitespace,
peek one character and dispatch on it. The fuel decreases on every entry;
the object/array loops receive the remaining fuel and the one-step-smaller
dispatcher. -/
def parse_value : Nat → List Char → Option (Except String JsonValue × List Char)
  | 0, _ => none
  | f + 1, s =>
    let s1 := skip_whitespace s
    match rustPeek s1 with
    | some '\x7b' => parse_object (fun t => parse_value f t) f s1
    | some '[' => parse_array (fun t => parse_value f t) f s1
    | some '"' =>
      match parse_string s1 with
      | (Except.ok str, r) => some (Except.ok (JsonValue.string str), r)
      | (Except.error m, r) => some (Except.error m, r)
    | some c =>
      if c = '-' ∨ c.isDigit then some (parse_number s1)
      else if c = 't' ∨ c = 'f' then some (parse_boolean s1)
      else if c = 'n' then some (parse_null s1)
      else some (Except.error ("Unexpected character: " ++ c.toString), s1)
    | none => some (Except.error "Unexpected end of input", s1)

/-- Models the tail of `parse_json` (parser.rs lines 197-202): skip
trailing whitespace and require end of input, failing with the
trailing-characters error otherwise. -/
def parse_json_finish (v : JsonValue) (rest : List Char) : Option (Except String JsonValue) :=
  match rustNext (skip_whitespace rest) with
  | some _ => some (Except.error "Unexpected characters after JSON value")
  | none => some (Except.ok v)

/-- Models `parse_json` (parser.rs lines 194-203): parse one value, then
check for trailing content. The fuel `3 * n + 4` is shown sufficient by the
fuel-sufficiency theorem, so `none` (fuel exhaustion) never occurs. -/
def parse_json (s : String) : Option (Except String JsonValue) :=
  match parse_value (3 * s.data.length + 4) s.data with
  | none => none
  | some (Except.error m, _) => some (Except.error m)
  | some (Except.ok v, rest) => parse_json_finish v rest

/-- Renders `"k":null,` for every key in turn and closes with `\x7d`; used to
quantify over all objects whose values are `null`. Every pair is rendered
with a trailing comma, which the object parser accepts. -/
def renderInner : List (List Char) → List Char
  | [] => ['\x7d']
  | k :: ks =>
    '"' :: (k ++ '"' :: ':' :: 'n' :: 'u' :: 'l' :: 'l' :: ',' :: renderInner ks)

/-- Renders a whole object document whose values are all `null`. -/
def renderObjNull (keys : List (List Char)) : List Char :=
  '\x7b' :: renderInner keys

/-- Whitespace-padded rendering data for one `"key":null,` pair: `w1` stands
before the opening quote of the key, `w2` between the closing quote and the
colon, `w3` between the colon and the value, and `w4` between the value and
the comma. Quantifying over these pads expresses inserting or removing
whitespace around every structural token of the pair. -/
structure PadSpec where
  key : List Char
  w1 : List Char
  w2 : List Char
  w3 : List Char
  w4 : List Char

/-- Renders one whitespace-padded `"key":null,` pair in front of `rest`. -/
def renderPair (p : PadSpec) (rest : List Char) : List Char :=
  p.w1 ++ '"' :: (p.key ++ '"' :: (p.w2 ++ ':' :: (p.w3 ++
    'n' :: 'u' :: 'l' :: 'l' :: (p.w4 ++ ',' :: rest))))

/-- Renders the inside of a whitespace-padded object: the padded pairs, then
whitespace `wend`, then the closing brace. -/
def renderInnerPad : List PadSpec → List Char → List Char
  | [], wend => wend ++ ['\x7d']
  | p :: ps, wend => renderPair p (renderInnerPad ps wend)

/-! Length bounds: no sub-parser ever makes the remaining input longer, and
the committed ones consume at least the one character they were dispatched
on. These feed the fuel-sufficiency argument. -/

theorem skip_whitespace_length (s : List Char) :
    (skip_whitespace s).length ≤ s.length := by
  unfold skip_whitespace
  induction s with
  | nil => simp [List.dropWhile]
  | cons c cs ih =>
    simp only [List.dropWhile]
    split
    · exact le_trans ih (Nat.le_succ _)
    · simp

theorem parse_string_loop_length (s acc : List Char) :
    (parse_string_loop s acc).2.length ≤ s.length := by
  induction s, acc using parse_string_loop.induct <;>
    (rw [parse_string_loop.eq_def]; try simp_all; try omega)

theorem parse_string_length (s : List Char) :
    (parse_string s).2.length ≤ s.tail.length := by
  unfold parse_string
  exact parse_string_loop_length _ _

theorem scan_number_length (s : List Char) :
    (scan_number s).2.length ≤ s.length := by
  induction s with
  | nil => simp [scan_number]
  | cons c cs ih =>
    simp only [scan_number]
    split
    · simpa using le_trans ih (Nat.le_succ _)
    · simp

theorem parse_number_conv_length (pre t : List Char) :
    (parse_number_conv pre t).2.length ≤ t.length := by
  unfold parse_number_conv
  split <;> simpa using scan_number_length t

theorem parse_number_length (s : List Char) :
    (parse_number s).2.length ≤ s.length := by
  unfold parse_number
  split
  · exact le_trans (parse_number_conv_length _ _) (Nat.le_succ _)
  · exact parse_number_conv_length _ _

theorem consume_if_match_length (e s : List Char) :
    (consume_if_match e s).2.length ≤ s.length := by
  unfold consume_if_match
  split <;> simp

theorem parse_boolean_length (s : List Char) :
    (parse_boolean s).2.length ≤ s.length := by
  unfold parse_boolean
  have ht := consume_if_match_length "true".data s
  have hf := consume_if_match_length "false".data s
  split
  · split <;> rename_i heq <;> (rw [heq] at ht; simpa using ht)
  · split <;> rename_i heq <;> (rw [heq] at hf; simpa using hf)
  · simp

theorem parse_null_length (s : List Char) :
    (parse_null s).2.length ≤ s.length := by
  unfold parse_null
  have h := consume_if_match_length "null".data s
  split <;> rename_i heq <;> (rw [heq] at h; simpa using h)

/-! Characterisation of the keyword matcher. -/

theorem checkMatch_eq_isPrefixOf (e s : List Char) :
    checkMatch e s = List.isPrefixOf e s := by
  induction e generalizing s with
  | nil => simp [checkMatch, List.isPrefixOf]
  | cons a as ih =>
    cases s with
    | nil => simp [checkMatch, List.isPrefixOf, rustNext]
    | cons b bs =>
      simp only [checkMatch, rustNext, List.isPrefixOf, ih]
      by_cases h : b = a
      · subst h
        simp
      · have hba : (a == b) = false := by
          simp only [beq_eq_false_iff_ne, ne_eq]
          exact fun hh => h hh.symm
        simp [h, hba]

theorem parse_object_loop_length
    (pv : List Char → Option (Except String JsonValue × List Char))
    (Hpv : ∀ t out, pv t = some out → out.2.length ≤ t.length) :
    ∀ (f : Nat) (s : List Char) (acc : List (List Char × JsonValue)) out,
      parse_object_loop pv f s acc = some out → out.2.length ≤ s.length := by
  intro f
  induction f with
  | zero =>
    intro s acc out h
    simp [parse_object_loop] at h
  | succ f ih =>
    intro s acc out h
    have hs1 := skip_whitespace_length s
    have hps := parse_string_length (skip_whitespace s)
    have htl : (skip_whitespace s).tail.length ≤ (skip_whitespace s).length := by
      cases skip_whitespace s <;> simp
    simp only [parse_object_loop] at h
    split at h
    · cases h
      simpa using le_trans htl hs1
    · split at h
      · rename_i m r heqs
        cases h
        have hr : r.length ≤ (skip_whitespace s).length := by
          have := congrArg (fun p => p.2.length) heqs
          simp at this
          omega
        simp only
        omega
      · rename_i key s2 heq2
        have hs2 : s2.length ≤ (skip_whitespace s).length := by
          have := congrArg (fun p => p.2.length) heq2
          simp at this
          omega
        have hs3 := skip_whitespace_length s2
        split at h
        · cases h
          simp only
          omega
        · rename_i c s4 heq4
          have hs4 : s4.length + 1 = (skip_whitespace s2).length := by
            unfold rustNext at heq4
            cases hsw : skip_whitespace s2 with
            | nil => rw [hsw] at heq4; simp at heq4
            | cons x xs =>
              rw [hsw] at heq4
              simp at heq4
              simp [heq4.2]
          split at h
          · split at h
            · exact absurd h (by simp)
            · rename_i m s5 heq5
              cases h
              have hs5e := Hpv _ _ heq5
              simp only at hs5e
              simp only
              omega
            · rename_i v s5 heq5
              have hs5 : s5.length ≤ s4.length := by
                have := Hpv s4 _ heq5
                simpa using this
              have hs6 := skip_whitespace_length s5
              split at h
              · cases h
                simp only
                omega
              · rename_i c2 s7 heq7
                have hs7 : s7.length + 1 = (skip_whitespace s5).length := by
                  unfold rustNext at heq7
                  cases hsw : skip_whitespace s5 with
                  | nil => rw [hsw] at heq7; simp at heq7
                  | cons x xs =>
                    rw [hsw] at heq7
                    simp at heq7
                    simp [heq7.2]
                split at h
                · have := ih s7 _ out h
                  omega
                · split at h <;> (cases h; simp only; omega)
          · cases h
            simp only
            omega

theorem parse_array_loop_length
    (pv : List Char → Option (Except String JsonValue × List Char))
    (Hpv : ∀ t out, pv t = some out → out.2.length ≤ t.length) :
    ∀ (f : Nat) (s : List Char) (acc : List JsonValue) out,
      parse_array_loop pv f s acc = some out → out.2.length ≤ s.length := by
  intro f
  induction f with
  | zero =>
    intro s acc out h
    simp [parse_array_loop] at h
  | succ f ih =>
    intro s acc out h
    have hs1 := skip_whitespace_length s
    have htl : (skip_whitespace s).tail.length ≤ (skip_whitespace s).length := by
      cases skip_whitespace s <;> simp
    simp only [parse_array_loop] at h
    split at h
    · cases h
      simpa using le_trans htl hs1
    · split at h
      · exact absurd h (by simp)
      · rename_i m s2 heq2
        cases h
        have hs2e := Hpv _ _ heq2
        simp only at hs2e
        simp only
        omega
      · rename_i v s2 heq2
        have hs2 : s2.length ≤ (skip_whitespace s).length := by
          have := Hpv _ _ heq2
          simpa using this
        have hs3 := skip_whitespace_length s2
        split at h
        · cases h
          simp only
          omega
        · rename_i c s4 heq4
          have hs4 : s4.length + 1 = (skip_whitespace s2).length := by
            unfold rustNext at heq4
            cases hsw : skip_whitespace s2 with
            | nil => rw [hsw] at heq4; simp at heq4
            | cons x xs =>
              rw [hsw] at heq4
              simp at heq4
              simp [heq4.2]
          split at h
          · have := ih s4 _ out h
            omega
          · split at h <;> (cases h; simp only; omega)

theorem parse_value_length :
    ∀ (f : Nat) (s : List Char) out,
      parse_value f s = some out → out.2.length ≤ s.length := by
  intro f
  induction f with
  | zero =>
    intro s out h
    simp [parse_value] at h
  | succ f ih =>
    intro s out h
    have hs1 := skip_whitespace_length s
    have htl : (skip_whitespace s).tail.length ≤ (skip_whitespace s).length := by
      cases skip_whitespace s <;> simp
    simp only [parse_value] at h
    split at h
    · unfold parse_object at h
      have := parse_object_loop_length _ (fun t o hh => ih t o hh) f _ _ _ h
      omega
    · unfold parse_array at h
      have := parse_array_loop_length _ (fun t o hh => ih t o hh) f _ _ _ h
      omega
    · split at h <;> rename_i heq <;> cases h <;>
        (have hps := parse_string_length (skip_whitespace s)
         have hlen2 := congrArg (fun p => p.2.length) heq
         simp at hlen2
         simp only
         omega)
    · split at h
      · cases h
        have := parse_number_length (skip_whitespace s)
        omega
      · split at h
        · cases h
          have := parse_boolean_length (skip_whitespace s)
          omega
        · split at h
          · cases h
            have := parse_null_length (skip_whitespace s)
            omega
          · cases h
            simpa using hs1
    · cases h
      simpa using hs1

theorem rustNext_some_length {s : List Char} {c : Char} {t : List Char}
    (h : rustNext s = some (c, t)) : t.length + 1 = s.length := by
  cases s with
  | nil => simp [rustNext] at h
  | cons x xs =>
    simp [rustNext] at h
    rw [← h.2]
    simp

theorem rustPeek_some_length {s : List Char} {c : Char}
    (h : rustPeek s = some c) : s.tail.length + 1 = s.length := by
  cases s with
  | nil => simp [rustPeek] at h
  | cons x xs => simp

theorem tail_length (s : List Char) : s.tail.length = s.length - 1 := by
  cases s <;> simp

/-! Fuel sufficiency: with the fuel budget `parse_json` allots, the fuel
counter never reaches zero, so the `none` outcome of the embedding (the only
non-result it can produce) never happens. -/

theorem parse_object_loop_suff
    (pv : List Char → Option (Except String JsonValue × List Char)) (n : Nat)
    (Hne : ∀ t : List Char, t.length ≤ n → pv t ≠ none)
    (Hlen : ∀ t out, pv t = some out → out.2.length ≤ t.length) :
    ∀ (f : Nat) (s : List Char) (acc : List (List Char × JsonValue)),
      s.length ≤ n → s.length + 1 ≤ f → parse_object_loop pv f s acc ≠ none := by
  intro f
  induction f with
  | zero =>
    intro s acc hn hf
    omega
  | succ f ih =>
    intro s acc hn hf h
    have hs1 := skip_whitespace_length s
    simp only [parse_object_loop] at h
    split at h
    · simp at h
    · split at h
      · simp at h
      · rename_i key s2 heq2
        have hs2 : s2.length ≤ (skip_whitespace s).tail.length := by
          have := congrArg (fun p => p.2.length) heq2
          have hps := parse_string_length (skip_whitespace s)
          simp at this
          omega
        have htl1 := tail_length (skip_whitespace s)
        split at h
        · simp at h
        · rename_i c s4 heq4
          have hs4 := rustNext_some_length heq4
          have hsw2 := skip_whitespace_length s2
          split at h
          · split at h
            · rename_i heq5
              exact Hne s4 (by omega) heq5
            · simp at h
            · rename_i v s5 heq5
              have hs5 := Hlen _ _ heq5
              simp only at hs5
              have hsw5 := skip_whitespace_length s5
              split at h
              · simp at h
              · rename_i c2 s7 heq7
                have hs7 := rustNext_some_length heq7
                split at h
                · exact ih s7 _ (by omega) (by omega) h
                · split at h <;> simp at h
          · simp at h

theorem parse_array_loop_suff
    (pv : List Char → Option (Except String JsonValue × List Char)) (n : Nat)
    (Hne : ∀ t : List Char, t.length ≤ n → pv t ≠ none)
    (Hlen : ∀ t out, pv t = some out → out.2.length ≤ t.length) :
    ∀ (f : Nat) (s : List Char) (acc : List JsonValue),
      s.length ≤ n → s.length + 1 ≤ f → parse_array_loop pv f s acc ≠ none := by
  intro f
  induction f with
  | zero =>
    intro s acc hn hf
    omega
  | succ f ih =>
    intro s acc hn hf h
    have hs1 := skip_whitespace_length s
    simp only [parse_array_loop] at h
    split at h
    · simp at h
    · split at h
      · rename_i heq2
        exact Hne (skip_whitespace s) (by omega) heq2
      · simp at h
      · rename_i v s2 heq2
        have hs2 := Hlen _ _ heq2
        simp only at hs2
        have hsw2 := skip_whitespace_length s2
        split at h
        · simp at h
        · rename_i c s4 heq4
          have hs4 := rustNext_some_length heq4
          split at h
          · exact ih s4 _ (by omega) (by omega) h
          · split at h <;> simp at h

theorem parse_value_suff :
    ∀ (f : Nat) (s : List Char), 3 * s.length + 4 ≤ f → parse_value f s ≠ none := by
  intro f
  induction f with
  | zero =>
    intro s hfuel
    omega
  | succ f ih =>
    intro s hfuel h
    have hs1 := skip_whitespace_length s
    simp only [parse_value] at h
    split at h
    · rename_i heqp
      have hpk := rustPeek_some_length heqp
      unfold parse_object at h
      refine parse_object_loop_suff _ (skip_whitespace s).tail.length
        (fun t htn => ih t (by omega)) (fun t o hh => parse_value_length f t o hh)
        f _ [] (le_refl _) (by omega) h
    · rename_i heqp
      have hpk := rustPeek_some_length heqp
      unfold parse_array at h
      refine parse_array_loop_suff _ (skip_whitespace s).tail.length
        (fun t htn => ih t (by omega)) (fun t o hh => parse_value_length f t o hh)
        f _ [] (le_refl _) (by omega) h
    · split at h <;> simp at h
    · split at h
      · simp at h
      · split at h
        · simp at h
        · split at h <;> simp at h
    · simp at h

/-! Round-trip machinery for objects rendered from an arbitrary key list. -/

theorem safe_key_string (k : List Char) (rest acc : List Char)
    (hk : ∀ c ∈ k, c ≠ '"' ∧ c ≠ '\\') :
    parse_string_loop (k ++ '"' :: rest) acc = (Except.ok (acc ++ k), rest) := by
  induction k generalizing acc with
  | nil =>
    rw [List.nil_append, parse_string_loop.eq_def]
    simp
  | cons c cs ih =>
    have hc := hk c (by simp)
    rw [List.cons_append, parse_string_loop.eq_def]
    simp [hc.1, hc.2, ih (acc ++ [c]) (fun x hx => hk x (by simp [hx]))]

theorem parse_value_null (g : Nat) (rest : List Char) :
    parse_value (g + 1) ('n' :: 'u' :: 'l' :: 'l' :: rest) =
      some (Except.ok JsonValue.null, rest) := rfl

theorem skip_whitespace_cons {c : Char} (s : List Char)
    (h : rust_is_whitespace c = false) : skip_whitespace (c :: s) = c :: s := by
  simp [skip_whitespace, List.dropWhile, h]

theorem parse_object_loop_render (g : Nat) (hg : 1 ≤ g) :
    ∀ (keys : List (List Char)) (f : Nat) (acc : List (List Char × JsonValue)),
      keys.length + 1 ≤ f →
      (∀ k ∈ keys, ∀ c ∈ k, c ≠ '"' ∧ c ≠ '\\') →
      parse_object_loop (fun t => parse_value g t) f (renderInner keys) acc =
        some (Except.ok (JsonValue.object
          (acc ++ keys.map (fun k => (k, JsonValue.null)))), []) := by
  intro keys
  induction keys with
  | nil =>
    intro f acc hf _hsafe
    obtain ⟨f', rfl⟩ : ∃ f', f = f' + 1 := ⟨f - 1, by omega⟩
    simp [parse_object_loop, renderInner, skip_whitespace, List.dropWhile,
      rust_is_whitespace, rustPeek]
  | cons k ks ih =>
    intro f acc hf hsafe
    obtain ⟨f', rfl⟩ : ∃ f', f = f' + 1 := ⟨f - 1, by omega⟩
    obtain ⟨g', rfl⟩ : ∃ g', g = g' + 1 := ⟨g - 1, by omega⟩
    have hk : ∀ c ∈ k, c ≠ '"' ∧ c ≠ '\\' := hsafe k (by simp)
    have hws1 : skip_whitespace ('"' :: (k ++ '"' :: ':' :: 'n' :: 'u' :: 'l' :: 'l' :: ',' ::
        renderInner ks)) = '"' :: (k ++ '"' :: ':' :: 'n' :: 'u' :: 'l' :: 'l' :: ',' ::
        renderInner ks) := skip_whitespace_cons _ (by decide)
    have hps : parse_string ('"' :: (k ++ '"' :: ':' :: 'n' :: 'u' :: 'l' :: 'l' :: ',' ::
        renderInner ks)) = (Except.ok k,
        ':' :: 'n' :: 'u' :: 'l' :: 'l' :: ',' :: renderInner ks) := by
      unfold parse_string
      simp only [List.tail_cons]
      rw [safe_key_string _ _ _ hk]
      simp
    have hws2 : skip_whitespace (':' :: 'n' :: 'u' :: 'l' :: 'l' :: ',' :: renderInner ks) =
        ':' :: 'n' :: 'u' :: 'l' :: 'l' :: ',' :: renderInner ks :=
      skip_whitespace_cons _ (by decide)
    have hpn : parse_value (g' + 1) ('n' :: 'u' :: 'l' :: 'l' :: ',' :: renderInner ks) =
        some (Except.ok JsonValue.null, ',' :: renderInner ks) := parse_value_null _ _
    have hws3 : skip_whitespace (',' :: renderInner ks) = ',' :: renderInner ks :=
      skip_whitespace_cons _ (by decide)
    have ihx := ih f' (acc ++ [(k, JsonValue.null)]) (by simp at hf ⊢; omega)
      (fun x hx => hsafe x (by simp [hx]))
    simp only [renderInner, parse_object_loop]
    simp [hws1, hps, hws2, hpn, hws3, ihx, rustPeek, rustNext]

theorem renderInner_length (keys : List (List Char)) :
    keys.length ≤ (renderInner keys).length := by
  induction keys with
  | nil => simp [renderInner]
  | cons k ks ih => simp [renderInner]; omega

theorem parse_value_obj (f : Nat) (s : List Char)
    (h : rustPeek (skip_whitespace s) = some '\x7b') :
    parse_value (f + 1) s =
      parse_object (fun t => parse_value f t) f (skip_whitespace s) := by
  simp only [parse_value]
  rw [h]
  rfl

/-! Whitespace-insensitivity machinery: skipping leading whitespace erases
an arbitrary whitespace-only prefix, and parsing a whitespace-padded
rendered object yields a result independent of every pad. -/

theorem ws_skip : ∀ (w : List Char), (∀ c ∈ w, rust_is_whitespace c = true) →
    ∀ s : List Char, skip_whitespace (w ++ s) = skip_whitespace s := by
  intro w
  induction w with
  | nil =>
    intro _ s
    simp
  | cons c cs ih =>
    intro hw s
    have hc := hw c (by simp)
    have h1 : skip_whitespace (c :: (cs ++ s)) = skip_whitespace (cs ++ s) := by
      simp [skip_whitespace, List.dropWhile, hc]
    rw [List.cons_append, h1]
    exact ih (fun x hx => hw x (by simp [hx])) s

theorem ws_skip_nil (w : List Char) (hw : ∀ c ∈ w, rust_is_whitespace c = true) :
    skip_whitespace w = [] := by
  have h := ws_skip w hw []
  simpa [skip_whitespace] using h

theorem skip_ws_quote : ∀ s, skip_whitespace ('"' :: s) = '"' :: s :=
  fun s => skip_whitespace_cons s (by decide)

theorem skip_ws_colon : ∀ s, skip_whitespace (':' :: s) = ':' :: s :=
  fun s => skip_whitespace_cons s (by decide)

theorem skip_ws_comma : ∀ s, skip_whitespace (',' :: s) = ',' :: s :=
  fun s => skip_whitespace_cons s (by decide)

theorem skip_ws_rbrace : ∀ s, skip_whitespace ('\x7d' :: s) = '\x7d' :: s :=
  fun s => skip_whitespace_cons s (by decide)

theorem skip_ws_lbrace : ∀ s, skip_whitespace ('\x7b' :: s) = '\x7b' :: s :=
  fun s => skip_whitespace_cons s (by decide)

theorem skip_ws_n : ∀ s, skip_whitespace ('n' :: s) = 'n' :: s :=
  fun s => skip_whitespace_cons s (by decide)

theorem parse_string_safe_key (k : List Char) (hk : ∀ c ∈ k, c ≠ '"' ∧ c ≠ '\\') :
    ∀ rest : List Char, parse_string ('"' :: (k ++ '"' :: rest)) = (Except.ok k, rest) := by
  intro rest
  unfold parse_string
  simp only [List.tail_cons]
  rw [safe_key_string _ _ _ hk]
  simp

theorem parse_value_null_ws (w : List Char)
    (hw : ∀ c ∈ w, rust_is_whitespace c = true) :
    ∀ (g : Nat) (rest : List Char),
      parse_value (g + 1) (w ++ 'n' :: 'u' :: 'l' :: 'l' :: rest) =
        some (Except.ok JsonValue.null, rest) := by
  intro g rest
  simp only [parse_value]
  rw [ws_skip w hw, skip_ws_n]
  rfl

theorem renderInnerPad_length (ps : List PadSpec) (wend : List Char) :
    ps.length ≤ (renderInnerPad ps wend).length := by
  induction ps with
  | nil => simp [renderInnerPad]
  | cons p ps ih =>
    simp [renderInnerPad, renderPair]
    omega

theorem parse_object_loop_render_pad (g : Nat) (hg : 1 ≤ g) :
    ∀ (ps : List PadSpec) (f : Nat) (acc : List (List Char × JsonValue))
      (wend suffix : List Char),
      ps.length + 1 ≤ f →
      (∀ c ∈ wend, rust_is_whitespace c = true) →
      (∀ p ∈ ps, (∀ c ∈ p.key, c ≠ '"' ∧ c ≠ '\\') ∧
        (∀ c ∈ p.w1, rust_is_whitespace c = true) ∧
        (∀ c ∈ p.w2, rust_is_whitespace c = true) ∧
        (∀ c ∈ p.w3, rust_is_whitespace c = true) ∧
        (∀ c ∈ p.w4, rust_is_whitespace c = true)) →
      parse_object_loop (fun t => parse_value g t) f (renderInnerPad ps wend ++ suffix) acc =
        some (Except.ok (JsonValue.object
          (acc ++ ps.map (fun p => (p.key, JsonValue.null)))), suffix) := by
  intro ps
  induction ps with
  | nil =>
    intro f acc wend suffix hf hwend _hsafe
    obtain ⟨f', rfl⟩ : ∃ f', f = f' + 1 := ⟨f - 1, by omega⟩
    simp only [renderInnerPad, List.append_assoc, List.singleton_append]
    simp only [parse_object_loop]
    rw [ws_skip wend hwend, skip_ws_rbrace]
    simp [rustPeek]
  | cons p ps ih =>
    intro f acc wend suffix hf hwend hsafe
    obtain ⟨f', rfl⟩ : ∃ f', f = f' + 1 := ⟨f - 1, by omega⟩
    obtain ⟨g', rfl⟩ : ∃ g', g = g' + 1 := ⟨g - 1, by omega⟩
    obtain ⟨hkey, hw1, hw2, hw3, hw4⟩ := hsafe p (by simp)
    have ihx := ih f' (acc ++ [(p.key, JsonValue.null)]) wend suffix
      (by simp at hf ⊢; omega) hwend (fun q hq => hsafe q (by simp [hq]))
    simp only [renderInnerPad, renderPair, List.append_assoc, List.cons_append]
    simp only [parse_object_loop]
    simp [ws_skip p.w1 hw1, ws_skip p.w2 hw2, ws_skip p.w4 hw4, skip_ws_quote,
      skip_ws_colon, skip_ws_comma, parse_string_safe_key p.key hkey,
      parse_value_null_ws p.w3 hw3, ihx, rustPeek, rustNext]

/-- C1 counterexample: the claim says a trailing comma (a `,` followed,
after optional whitespace, by the closing `\x7d` or `]`) makes the parse
fail, but both `\x7ba:1,\x7d` (with a quoted key) and `[1,]` parse
successfully: the loop re-entry checks for the closing delimiter before
expecting another key/element. -/
theorem c1_trailing_comma_counterexample :
    parse_json "\x7b\"a\":1,\x7d" =
      some (Except.ok (JsonValue.object [("a".data, JsonValue.number 1 0)])) ∧
    parse_json "[1,]" =
      some (Except.ok (JsonValue.array [JsonValue.number 1 0])) :=
  ⟨rfl, rfl⟩

/-- C1 (amended): trailing commas are accepted, not rejected. After a comma
the loop re-enters, and the first thing each loop iteration does is check
for the closing `\x7d` / `]` and return successfully, so a comma followed
(after optional whitespace) by the closing delimiter parses like the
empty-collection case; in particular `\x7ba:1,\x7d` and `[1,]` succeed. -/
theorem c1_trailing_comma_accepted :
    (∀ (pv : List Char → Option (Except String JsonValue × List Char)) (f : Nat)
        (s : List Char) (acc : List (List Char × JsonValue)),
        rustPeek (skip_whitespace s) = some '\x7d' →
        parse_object_loop pv (f + 1) s acc =
          some (Except.ok (JsonValue.object acc), (skip_whitespace s).tail)) ∧
    (∀ (pv : List Char → Option (Except String JsonValue × List Char)) (f : Nat)
        (s : List Char) (acc : List JsonValue),
        rustPeek (skip_whitespace s) = some ']' →
        parse_array_loop pv (f + 1) s acc =
          some (Except.ok (JsonValue.array acc), (skip_whitespace s).tail)) ∧
    parse_json "\x7b\"a\":1,\x7d" =
      some (Except.ok (JsonValue.object [("a".data, JsonValue.number 1 0)])) ∧
    parse_json "[1,]" =
      some (Except.ok (JsonValue.array [JsonValue.number 1 0])) := by
  refine ⟨?_, ?_, rfl, rfl⟩
  · intro pv f s acc h
    simp only [parse_object_loop]
    rw [h]
    rfl
  · intro pv f s acc h
    simp only [parse_array_loop]
    rw [h]
    rfl

/-- C1 witness: the amended loop-re-entry facts applied at the concrete
one-character input `\x7d` / `]`. -/
theorem c1_trailing_comma_accepted_witness :
    parse_object_loop (fun _ => none) 1 ['\x7d'] [] =
      some (Except.ok (JsonValue.object []), []) ∧
    parse_array_loop (fun _ => none) 1 [']'] [] =
      some (Except.ok (JsonValue.array []), []) :=
  ⟨c1_trailing_comma_accepted.1 (fun _ => none) 0 ['\x7d'] [] rfl,
   c1_trailing_comma_accepted.2.1 (fun _ => none) 0 [']'] [] rfl⟩

/-- C2 counterexample: the claim says a non-quote character at an object key
position fails with InvalidKey without being consumed, but there is no
InvalidKey error at all: in `\x7ba":1\x7d` the `a` is consumed as if it
were the opening quote, the very next `"` closes an empty-string key, and
the document parses successfully. -/
theorem c2_invalid_key_counterexample :
    parse_json "\x7ba\":1\x7d" =
      some (Except.ok (JsonValue.object [(([] : List Char), JsonValue.number 1 0)])) :=
  rfl

/-- C2 (amended): at an object key position any first non-whitespace
character other than `\x7d` is handed to `parse_string`, which consumes it
unconditionally as the opening quote and keeps scanning for a closing `"`;
no InvalidKey error exists. So `\x7bx:1\x7d` fails with the unterminated
string error (after consuming `x`), and `\x7ba":1\x7d` parses successfully
with an empty key. -/
theorem c2_key_consumed_unconditionally :
    (∀ (c : Char) (s : List Char), c ≠ '"' →
        parse_string (c :: s) = parse_string_loop s []) ∧
    parse_json "\x7bx:1\x7d" = some (Except.error "Unterminated string") ∧
    parse_json "\x7ba\":1\x7d" =
      some (Except.ok (JsonValue.object [(([] : List Char), JsonValue.number 1 0)])) :=
  ⟨fun _ _ _ => rfl, rfl, rfl⟩

/-- C2 witness: the unconditional-consumption fact applied at the concrete
non-quote character `x`. -/
theorem c2_key_consumed_unconditionally_witness :
    parse_string ('x' :: ':' :: []) = parse_string_loop (':' :: []) [] :=
  c2_key_consumed_unconditionally.1 'x' (':' :: []) (by decide)

/-- C4 counterexample: the claim says any non-hex character among the 4
after `\u` (for example a `+` sign) makes the parse fail, but
`u32::from_str_radix` accepts an optional leading `+`, so the document
`"\u+123"` parses successfully to the one-character string U+0123. -/
theorem c4_unicode_escape_counterexample :
    parse_json "\"\\u+123\"" = some (Except.ok (JsonValue.string ['\u0123'])) :=
  rfl

/-- C4 (amended): a `\u` escape fails with the invalid-unicode-escape error
when fewer than 4 characters follow the `u`, and when the 4 characters are
rejected by `u32::from_str_radix(_, 16)`; but that conversion accepts an
optional leading `+`, so `+` followed by 3 hex digits is accepted and
decodes to the code point with that value. -/
theorem c4_unicode_escape_checks :
    (∀ (rest2 acc : List Char), rest2.length < 4 →
        parse_string_loop ('\\' :: 'u' :: rest2) acc =
          (Except.error "Invalid unicode escape", [])) ∧
    (∀ (a b c d : Char) (rest3 acc : List Char), parseHexU32 [a, b, c, d] = none →
        parse_string_loop ('\\' :: 'u' :: a :: b :: c :: d :: rest3) acc =
          (Except.error "Invalid unicode escape", rest3)) ∧
    (∀ (h2 h3 h4 : Char) (n : Nat), parseHexU32 ['+', h2, h3, h4] = some n →
        n.isValidChar → decode_u16 '+' h2 h3 h4 = Except.ok (Char.ofNat n)) := by
  refine ⟨?_, ?_, ?_⟩
  · intro rest2 acc hlen
    rcases rest2 with _ | ⟨a, _ | ⟨b, _ | ⟨c, _ | ⟨d, r⟩⟩⟩⟩
    · rw [parse_string_loop.eq_def]
      simp
    · rw [parse_string_loop.eq_def]
      simp
    · rw [parse_string_loop.eq_def]
      simp
    · rw [parse_string_loop.eq_def]
      simp
    · exfalso
      simp only [List.length_cons] at hlen
      omega
  · intro a b c d rest3 acc h
    rw [parse_string_loop.eq_def]
    simp [decode_u16, h]
  · intro h2 h3 h4 n h hv
    unfold decode_u16
    rw [h]
    simp [rustCharFromU32, Char.ofNat, hv]

/-- C4 witness: the three amended facts at concrete inputs: a truncated
escape, a non-hex escape, and the accepted `+`-prefixed escape. -/
theorem c4_unicode_escape_checks_witness :
    parse_string_loop ('\\' :: 'u' :: '0' :: '0' :: []) [] =
      (Except.error "Invalid unicode escape", []) ∧
    parse_string_loop ('\\' :: 'u' :: 'z' :: '0' :: '0' :: '0' :: '"' :: []) [] =
      (Except.error "Invalid unicode escape", ['"']) ∧
    decode_u16 '+' '1' '2' '3' = Except.ok (Char.ofNat 291) :=
  ⟨c4_unicode_escape_checks.1 ('0' :: '0' :: []) [] (by decide),
   c4_unicode_escape_checks.2.1 'z' '0' '0' '0' ['"'] [] rfl,
   c4_unicode_escape_checks.2.2 '1' '2' '3' 291 rfl (by decide)⟩

/-- C5: `"\u0041"` parses to the string `A`; `"\uD800"` (a lone surrogate
escape) fails with the invalid-unicode-escape error; and in general any
4-hex-digit escape whose 16-bit value lies in the surrogate range
`0xD800..0xDFFF` is rejected by the decode step — there is no reassembly of
surrogate pairs across two escapes, because the first half already fails. -/
theorem c5_unicode_escape_decoding :
    parse_json "\"\\u0041\"" = some (Except.ok (JsonValue.string ['A'])) ∧
    parse_json "\"\\uD800\"" = some (Except.error "Invalid unicode escape") ∧
    (∀ (a b c d : Char) (n : Nat), parseHexU32 [a, b, c, d] = some n →
        0xD800 ≤ n → n ≤ 0xDFFF →
        decode_u16 a b c d = Except.error "Invalid unicode escape") := by
  refine ⟨rfl, rfl, ?_⟩
  intro a b c d n h hlo hhi
  unfold decode_u16
  rw [h]
  have hv : ¬ n.isValidChar := by
    unfold Nat.isValidChar
    omega
  simp [rustCharFromU32, hv]

/-- C5 witness: the general surrogate-rejection fact applied at the concrete
escape digits `D800`. -/
theorem c5_unicode_escape_decoding_witness :
    decode_u16 'D' '8' '0' '0' = Except.error "Invalid unicode escape" :=
  c5_unicode_escape_decoding.2.2 'D' '8' '0' '0' 0xD800 rfl (by decide) (by decide)

/-- C6: for every list of keys (safe for the plain string renderer:
no `"` or `\` characters), parsing the rendered object whose values are all
`null` yields exactly those (key, null) pairs in textual order — duplicate
keys included, with no deduplication and no last-wins overwriting. -/
theorem c6_object_order_duplicates :
    ∀ keys : List (List Char),
      (∀ k ∈ keys, ∀ c ∈ k, c ≠ '"' ∧ c ≠ '\\') →
      parse_json ⟨renderObjNull keys⟩ =
        some (Except.ok (JsonValue.object (keys.map fun k => (k, JsonValue.null)))) := by
  intro keys hsafe
  have hlen := renderInner_length keys
  unfold parse_json
  have hdata : (⟨renderObjNull keys⟩ : String).data = renderObjNull keys := rfl
  rw [hdata]
  unfold renderObjNull
  have hF : 3 * ('\x7b' :: renderInner keys).length + 4 =
      (3 * (renderInner keys).length + 6) + 1 := by
    simp
    omega
  rw [hF]
  rw [parse_value_obj _ _ (by rw [skip_whitespace_cons _ (by decide)]; rfl)]
  rw [skip_whitespace_cons _ (by decide)]
  unfold parse_object
  simp only [List.tail_cons]
  have hloop := parse_object_loop_render (3 * (renderInner keys).length + 6) (by omega)
    keys (3 * (renderInner keys).length + 6) [] (by omega) hsafe
  rw [hloop]
  simp [parse_json_finish, skip_whitespace, rustNext]

/-- C6 witness: the round-trip applied at the duplicate key list
`["a", "a"]`: both occurrences are retained, in order. -/
theorem c6_object_order_duplicates_witness :
    parse_json ⟨renderObjNull ["a".data, "a".data]⟩ =
      some (Except.ok (JsonValue.object
        [("a".data, JsonValue.null), ("a".data, JsonValue.null)])) :=
  c6_object_order_duplicates ["a".data, "a".data] (by decide)

/-- C7: the entry point parses one value, skips trailing whitespace, and
fails with the trailing-characters error exactly when non-whitespace input
remains; `123abc` fails that way because the number scanner consumes only
`123` and leaves `abc` unconsumed. -/
theorem c7_trailing_characters :
    (∀ (s : String) (v : JsonValue) (rest : List Char),
        parse_value (3 * s.data.length + 4) s.data = some (Except.ok v, rest) →
        (skip_whitespace rest = [] → parse_json s = some (Except.ok v)) ∧
        (skip_whitespace rest ≠ [] →
          parse_json s = some (Except.error "Unexpected characters after JSON value"))) ∧
    parse_json "123abc" =
      some (Except.error "Unexpected characters after JSON value") ∧
    parse_number "123abc".data = (Except.ok (JsonValue.number 123 0), "abc".data) := by
  refine ⟨?_, rfl, rfl⟩
  intro s v rest h
  unfold parse_json
  rw [h]
  show (skip_whitespace rest = [] → parse_json_finish v rest = some (Except.ok v)) ∧
    (skip_whitespace rest ≠ [] → parse_json_finish v rest =
      some (Except.error "Unexpected characters after JSON value"))
  unfold parse_json_finish
  constructor
  · intro he
    rw [he]
    rfl
  · intro hne
    cases hsw : skip_whitespace rest with
    | nil => exact absurd hsw hne
    | cons c t => simp [hsw, rustNext]

/-- C7 witness: the entry-point contract applied at the concrete document
`1`, whose value parse leaves an empty remainder. -/
theorem c7_trailing_characters_witness :
    parse_json "1" = some (Except.ok (JsonValue.number 1 0)) :=
  (c7_trailing_characters.1 "1" (JsonValue.number 1 0) [] rfl).1 rfl

/-- C8: the keyword matcher's clone-and-compare loop succeeds exactly on a
full character-by-character prefix match; on failure the cursor is returned
unchanged, and on success it advances by the keyword's byte length; so
`tru` fails with the expected-keyword error `Expected 'true'`. -/
theorem c8_keyword_match_commit :
    (∀ e s : List Char, checkMatch e s = List.isPrefixOf e s) ∧
    (∀ e s : List Char, List.isPrefixOf e s = false → consume_if_match e s = (false, s)) ∧
    (∀ e s : List Char, List.isPrefixOf e s = true →
        consume_if_match e s = (true, s.drop (utf8Len e))) ∧
    parse_json "tru" = some (Except.error "Expected \x27true\x27") := by
  refine ⟨checkMatch_eq_isPrefixOf, ?_, ?_, rfl⟩
  · intro e s h
    unfold consume_if_match
    rw [checkMatch_eq_isPrefixOf, h]
    simp
  · intro e s h
    unfold consume_if_match
    rw [checkMatch_eq_isPrefixOf, h]
    simp

/-- C8 witness: the matcher facts at the concrete keyword `true` against
the partial input `tru` (no commit, cursor unchanged) and against `truex`
(commit, cursor past the four matched characters). -/
theorem c8_keyword_match_commit_witness :
    consume_if_match "true".data "tru".data = (false, "tru".data) ∧
    consume_if_match "true".data "truex".data = (true, ['x']) :=
  ⟨c8_keyword_match_commit.2.1 "true".data "tru".data rfl,
   c8_keyword_match_commit.2.2.1 "true".data "truex".data rfl⟩

/-- C9: parsing is insensitive to whitespace between tokens. For every
object document in the rendered family — an arbitrary list of padded pairs,
with arbitrary whitespace-only paddings at every structural slot (leading
whitespace, before each key, around each colon, before each value, before
each comma, before the closing brace, and trailing whitespace) — the parse
result is one fixed value that does not mention any of the pads, so
inserting or removing whitespace around structural tokens never changes the
resulting tree; and concretely `" { "x" : 1 } "` parses structurally equal
to `{"x":1}`, namely to the object with the single pair (`x`, 1). -/
theorem c9_whitespace_insensitive :
    (∀ (ps : List PadSpec) (wlead wend wtrail : List Char),
        (∀ p ∈ ps, (∀ c ∈ p.key, c ≠ '"' ∧ c ≠ '\\') ∧
          (∀ c ∈ p.w1, rust_is_whitespace c = true) ∧
          (∀ c ∈ p.w2, rust_is_whitespace c = true) ∧
          (∀ c ∈ p.w3, rust_is_whitespace c = true) ∧
          (∀ c ∈ p.w4, rust_is_whitespace c = true)) →
        (∀ c ∈ wlead, rust_is_whitespace c = true) →
        (∀ c ∈ wend, rust_is_whitespace c = true) →
        (∀ c ∈ wtrail, rust_is_whitespace c = true) →
        parse_json ⟨wlead ++ '\x7b' :: (renderInnerPad ps wend ++ wtrail)⟩ =
          some (Except.ok (JsonValue.object
            (ps.map (fun p => (p.key, JsonValue.null)))))) ∧
    parse_json " \x7b \"x\" : 1 \x7d " = parse_json "\x7b\"x\":1\x7d" ∧
    parse_json "\x7b\"x\":1\x7d" =
      some (Except.ok (JsonValue.object [("x".data, JsonValue.number 1 0)])) := by
  refine ⟨?_, rfl, rfl⟩
  intro ps wlead wend wtrail hps hwl hwe hwt
  have hlen := renderInnerPad_length ps wend
  unfold parse_json
  have hdata : (⟨wlead ++ '\x7b' :: (renderInnerPad ps wend ++ wtrail)⟩ : String).data =
      wlead ++ '\x7b' :: (renderInnerPad ps wend ++ wtrail) := rfl
  rw [hdata]
  have hlts : (wlead ++ '\x7b' :: (renderInnerPad ps wend ++ wtrail)).length =
      wlead.length + 1 + (renderInnerPad ps wend).length + wtrail.length := by
    simp
    omega
  obtain ⟨F, hF, hFb, hFc⟩ :
      ∃ F, 3 * (wlead ++ '\x7b' :: (renderInnerPad ps wend ++ wtrail)).length + 4 = F + 1 ∧
        ps.length + 1 ≤ F ∧ 1 ≤ F :=
    ⟨3 * (wlead ++ '\x7b' :: (renderInnerPad ps wend ++ wtrail)).length + 3,
      rfl, by rw [hlts]; omega, by omega⟩
  rw [hF]
  rw [parse_value_obj _ _ (by rw [ws_skip wlead hwl, skip_ws_lbrace]; rfl)]
  rw [ws_skip wlead hwl, skip_ws_lbrace]
  unfold parse_object
  simp only [List.tail_cons]
  have hloop := parse_object_loop_render_pad F hFc ps F [] wend wtrail hFb hwe hps
  rw [hloop]
  show parse_json_finish _ wtrail = _
  unfold parse_json_finish
  rw [ws_skip_nil wtrail hwt]
  simp [rustNext]

/-- C9 witness: the padded-render theorem applied at a concrete document
with one pair, a single space in every whitespace slot. -/
theorem c9_whitespace_insensitive_witness :
    parse_json ⟨[' '] ++ '\x7b' ::
        (renderInnerPad [⟨"x".data, [' '], [' '], [' '], [' ']⟩] [' '] ++ [' '])⟩ =
      some (Except.ok (JsonValue.object [("x".data, JsonValue.null)])) :=
  c9_whitespace_insensitive.1 [⟨"x".data, [' '], [' '], [' '], [' ']⟩] [' '] [' '] [' ']
    (by
      intro p hp
      simp only [List.mem_singleton] at hp
      subst hp
      exact ⟨by decide, by decide, by decide, by decide, by decide⟩)
    (by decide) (by decide) (by decide)

/-- C10: for every input string the parser returns a result (`isSome`: the
fuel chosen by `parse_json` is always sufficient, so the embedding's only
non-result outcome never occurs — mirroring that the Rust code always
returns `Ok` or `Err`); and whenever `peek` guarantees a next character,
`next` yields exactly that character, which is why the guarded `.unwrap()`
calls in `parse_number` cannot panic. -/
theorem c10_total_no_panic :
    (∀ s : String, (parse_json s).isSome = true) ∧
    (∀ (l : List Char) (c : Char), rustPeek l = some c → rustNext l = some (c, l.tail)) := by
  constructor
  · intro s
    unfold parse_json
    have h := parse_value_suff (3 * s.data.length + 4) s.data (le_refl _)
    cases hv : parse_value (3 * s.data.length + 4) s.data with
    | none => exact absurd hv h
    | some out =>
      obtain ⟨r, rest⟩ := out
      cases r with
      | error m => simp [hv]
      | ok v =>
        try rw [hv]
        show (parse_json_finish v rest).isSome = true
        unfold parse_json_finish
        cases hsw : rustNext (skip_whitespace rest) <;> simp
  · intro l c h
    cases l with
    | nil => simp [rustPeek] at h
    | cons x xs =>
      simp [rustPeek] at h
      simp [rustNext, h]

/-- C10 witness: totality at the empty input and the peek-next guard at the
one-character list `a`. -/
theorem c10_total_no_panic_witness :
    (parse_json "").isSome = true ∧ rustNext ['a'] = some ('a', []) :=
  ⟨c10_total_no_panic.1 "", c10_total_no_panic.2 ['a'] 'a' rfl⟩
